import Mathlib

/-!
Verification development for the two algorithmic components of
`src/wndcharm/utils.py` of the wnd-charm repository:

* `SampleImageTiles` — a grid-based image tiling sampler (`__init__` and the
  generator method `sample`);
* `normalize_by_columns` — a column-wise matrix normalization routine built on
  numpy masked arrays.

The Python code is shallowly embedded: the constructor arithmetic becomes pure
functions on `Nat`, the generator `sample` becomes a fuel-indexed small-step
evaluator (fuel is needed because the Python loop does not terminate when
`tile_width = 0`), and the numpy float semantics are modelled by an extended
value type `EFloat` (NaN, plus/minus infinity, exact rationals).
-/

/-- Python exception classes raised by the embedded code.  In the source all
three constructor failure branches raise `ValueError`; `ZeroDivisionError`
models Python 2 integer division by zero in `int(self.image.width / x)`. -/
inductive PyExc where
  | valueError
  | typeError
  | zeroDivisionError
deriving DecidableEq

/-- Whether an exception is of class `TypeError` (Python's `ValueError` is not
a subclass of `TypeError`). -/
def PyExc.isTypeError : PyExc → Bool
  | .typeError => true
  | _ => false

/-- The immutable configuration stored on a `SampleImageTiles` instance by
`__init__`: the source image dimensions and the fields
`tile_width`, `tile_height`, `tiles_x`, `tiles_y`, `samples`. -/
structure SamplerCfg where
  width : Nat
  height : Nat
  tile_width : Nat
  tile_height : Nat
  tiles_x : Nat
  tiles_y : Nat
  samples : Nat
deriving DecidableEq

/-- The arithmetic part of `SampleImageTiles.__init__` (utils.py lines
213-224).  `is_fixed = true`: `x`, `y` are tile pixel dimensions and the tile
counts are `width / x`, `height / y`.  `is_fixed = false`: `x`, `y` are tile
counts and the tile dimensions are `width / x`, `height / y`.  In both modes
`samples = tiles_x * tiles_y`. -/
def mkSamplerCfg (w h x y : Nat) (is_fixed : Bool) : SamplerCfg :=
  if is_fixed then
    { width := w, height := h
      tile_width := x, tile_height := y
      tiles_x := w / x, tiles_y := h / y
      samples := (w / x) * (h / y) }
  else
    { width := w, height := h
      tile_width := w / x, tile_height := h / y
      tiles_x := x, tiles_y := y
      samples := x * y }

/-- The `image_in` argument of `SampleImageTiles.__init__`: a filesystem path
(with the two facts the constructor tests: existence and decodability, plus
the decoded dimensions), an already-decoded `wndcharm.ImageMatrix`, or a value
of any other type. -/
inductive ImageInput where
  | path (pathExists : Bool) (decodes : Bool) (w h : Nat)
  | matrix (w h : Nat)
  | other

/-- `SampleImageTiles.__init__` (utils.py lines 199-224).  A nonexistent or
undecodable path raises `ValueError`; an `image_in` that is neither a string
nor an `ImageMatrix` also raises `ValueError` (not a `TypeError`).  With a
valid image, Python 2 integer division raises `ZeroDivisionError` when
`x = 0` or `y = 0`; otherwise the configuration fields are computed. -/
def SampleImageTiles_init (image_in : ImageInput) (x y : Nat) (is_fixed : Bool) :
    Except PyExc SamplerCfg :=
  match image_in with
  | .path pathExists decodes w h =>
      if !pathExists then .error .valueError
      else if !decodes then .error .valueError
      else if x = 0 ∨ y = 0 then .error .zeroDivisionError
      else .ok (mkSamplerCfg w h x y is_fixed)
  | .matrix w h =>
      if x = 0 ∨ y = 0 then .error .zeroDivisionError
      else .ok (mkSamplerCfg w h x y is_fixed)
  | .other => .error .valueError

/-- Which of the two nested `while` loops of `sample` is about to run its
condition test. -/
inductive TilePhase where
  | outer
  | inner
deriving DecidableEq

/-- The bounding box passed to `ImageMatrix.submatrix`: the closed pixel
rectangle `(x0, y0) - (x1, y1)`.  Coordinates are integers because the code
computes `current_x + width - 1`, which is `-1` when `width = 0`. -/
structure TileRect where
  x0 : Int
  y0 : Int
  x1 : Int
  y1 : Int
deriving DecidableEq

/-- One step of the iteration as observed by the caller: the extracted tile's
bounding box together with the cursor fields `current_x`, `current_y`,
`current_row`, `current_col` as they stand while the caller holds the tile. -/
structure TileYield where
  current_x : Nat
  current_y : Nat
  current_row : Nat
  current_col : Nat
  tile : TileRect
deriving DecidableEq

/-- The yield performed by `sample` at cursor position `(cx, cy)` in row
`row`, column `col`: the code extracts the rectangle
`(cx, cy, cx + tile_width - 1, cy + tile_height - 1)`. -/
def mkYield (cfg : SamplerCfg) (cx cy row col : Nat) : TileYield :=
  { current_x := cx
    current_y := cy
    current_row := row
    current_col := col
    tile := { x0 := cx, y0 := cy
              x1 := (cx : Int) + cfg.tile_width - 1
              y1 := (cy : Int) + cfg.tile_height - 1 } }

/-- Fuel-indexed evaluator for the generator `SampleImageTiles.sample`
(utils.py lines 226-246).  `TilePhase.outer` is at the test
`current_y + height <= max_y`; `TilePhase.inner` is at the test
`current_x + width <= max_x`.  Entering the outer loop body resets
`current_col`/`current_x` to 0; the inner body yields a tile and advances
`current_x`/`current_col`; leaving the inner loop advances
`current_y`/`current_row`.  The result is `some` of the list of yields when
the generator finishes within the given fuel, and `none` otherwise. -/
def sampleRun (cfg : SamplerCfg) :
    Nat → TilePhase → Nat → Nat → Nat → Nat → Option (List TileYield)
  | 0, _, _, _, _, _ => none
  | n + 1, .outer, _, _, cy, row =>
      if cy + cfg.tile_height ≤ cfg.height then
        sampleRun cfg n .inner 0 0 cy row
      else
        some []
  | n + 1, .inner, cx, col, cy, row =>
      if cx + cfg.tile_width ≤ cfg.width then
        (sampleRun cfg n .inner (cx + cfg.tile_width) (col + 1) cy row).map
          (fun rest => mkYield cfg cx cy row col :: rest)
      else
        sampleRun cfg n .outer cx col (cy + cfg.tile_height) (row + 1)

/-- The yields produced by one pass of the inner loop starting at horizontal
cursor `cx`, column `col`, for `k` iterations. -/
def colsList (cfg : SamplerCfg) : Nat → Nat → Nat → Nat → Nat → List TileYield
  | 0, _, _, _, _ => []
  | k + 1, cx, col, cy, row =>
      mkYield cfg cx cy row col ::
        colsList cfg k (cx + cfg.tile_width) (col + 1) cy row

/-- The yields produced by `r` passes of the outer loop starting at vertical
cursor `cy`, row `row`; each pass runs the inner loop
`cfg.width / cfg.tile_width` times. -/
def rowsList (cfg : SamplerCfg) : Nat → Nat → Nat → List TileYield
  | 0, _, _ => []
  | r + 1, cy, row =>
      colsList cfg (cfg.width / cfg.tile_width) 0 0 cy row ++
        rowsList cfg r (cy + cfg.tile_height) (row + 1)

/-- The full sequence of yields of one pass of `sample` when the tile
dimensions are positive. -/
def expectedYields (cfg : SamplerCfg) : List TileYield :=
  rowsList cfg (cfg.height / cfg.tile_height) 0 0

set_option maxRecDepth 4000

theorem sampleRun_outer_irrel (cfg : SamplerCfg) (n cx col cx' col' cy row : Nat) :
    sampleRun cfg n .outer cx col cy row = sampleRun cfg n .outer cx' col' cy row := by
  cases n <;> rfl

theorem sampleRun_outer_succ (cfg : SamplerCfg) (n cx col cy row : Nat) :
    sampleRun cfg (n + 1) .outer cx col cy row =
      if cy + cfg.tile_height ≤ cfg.height then
        sampleRun cfg n .inner 0 0 cy row
      else
        some [] := rfl

theorem sampleRun_inner_succ (cfg : SamplerCfg) (n cx col cy row : Nat) :
    sampleRun cfg (n + 1) .inner cx col cy row =
      if cx + cfg.tile_width ≤ cfg.width then
        (sampleRun cfg n .inner (cx + cfg.tile_width) (col + 1) cy row).map
          (fun rest => mkYield cfg cx cy row col :: rest)
      else
        sampleRun cfg n .outer cx col (cy + cfg.tile_height) (row + 1) := rfl

theorem sampleRun_inner_eq (cfg : SamplerCfg) (k : Nat) :
    ∀ (cx col cy row n : Nat) (rest : List TileYield),
      cx + k * cfg.tile_width ≤ cfg.width →
      cfg.width < cx + k * cfg.tile_width + cfg.tile_width →
      sampleRun cfg n .outer 0 0 (cy + cfg.tile_height) (row + 1) = some rest →
      sampleRun cfg (n + k + 1) .inner cx col cy row =
        some (colsList cfg k cx col cy row ++ rest) := by
  induction k with
  | zero =>
      intro cx col cy row n rest h1 h2 h3
      rw [sampleRun_inner_succ, if_neg (by omega)]
      rw [sampleRun_outer_irrel cfg n cx col 0 0]
      simpa [colsList] using h3
  | succ k ih =>
      intro cx col cy row n rest h1 h2 h3
      have h1' : cx + cfg.tile_width + k * cfg.tile_width ≤ cfg.width := by
        have e : cx + cfg.tile_width + k * cfg.tile_width
            = cx + (k + 1) * cfg.tile_width := by ring
        rw [e]; exact h1
      have h2' : cfg.width <
          cx + cfg.tile_width + k * cfg.tile_width + cfg.tile_width := by
        have e : cx + cfg.tile_width + k * cfg.tile_width + cfg.tile_width
            = cx + (k + 1) * cfg.tile_width + cfg.tile_width := by ring
        rw [e]; exact h2
      have hstep : cx + cfg.tile_width ≤ cfg.width :=
        le_trans (Nat.le_add_right _ _) h1'
      have hrec := ih (cx + cfg.tile_width) (col + 1) cy row n rest h1' h2' h3
      have efuel : n + (k + 1) + 1 = (n + k + 1) + 1 := by omega
      rw [efuel, sampleRun_inner_succ, if_pos hstep, hrec]
      simp [colsList]

theorem sampleRun_outer_eq (cfg : SamplerCfg) (hW : 0 < cfg.tile_width) (r : Nat) :
    ∀ (cy row : Nat),
      cy + r * cfg.tile_height ≤ cfg.height →
      cfg.height < cy + r * cfg.tile_height + cfg.tile_height →
      ∃ n, sampleRun cfg n .outer 0 0 cy row = some (rowsList cfg r cy row) := by
  induction r with
  | zero =>
      intro cy row h1 h2
      exact ⟨1, by rw [sampleRun_outer_succ, if_neg (by omega)]; rfl⟩
  | succ r ih =>
      intro cy row h1 h2
      have henter : cy + cfg.tile_height ≤ cfg.height := by
        refine le_trans ?_ h1
        have e : (r + 1) * cfg.tile_height
            = r * cfg.tile_height + cfg.tile_height := by ring
        rw [e]
        exact Nat.add_le_add_left (Nat.le_add_left _ _) cy
      have h1' : cy + cfg.tile_height + r * cfg.tile_height ≤ cfg.height := by
        have e : cy + cfg.tile_height + r * cfg.tile_height
            = cy + (r + 1) * cfg.tile_height := by ring
        rw [e]; exact h1
      have h2' : cfg.height <
          cy + cfg.tile_height + r * cfg.tile_height + cfg.tile_height := by
        have e : cy + cfg.tile_height + r * cfg.tile_height + cfg.tile_height
            = cy + (r + 1) * cfg.tile_height + cfg.tile_height := by ring
        rw [e]; exact h2
      obtain ⟨n, hn⟩ := ih (cy + cfg.tile_height) (row + 1) h1' h2'
      have hk1 : 0 + (cfg.width / cfg.tile_width) * cfg.tile_width ≤ cfg.width := by
        simpa using Nat.div_mul_le_self cfg.width cfg.tile_width
      have hk2 : cfg.width <
          0 + (cfg.width / cfg.tile_width) * cfg.tile_width + cfg.tile_width := by
        have hdm := Nat.div_add_mod cfg.width cfg.tile_width
        have hml := Nat.mod_lt cfg.width hW
        have e3 : cfg.width / cfg.tile_width * cfg.tile_width
            = cfg.tile_width * (cfg.width / cfg.tile_width) := Nat.mul_comm _ _
        rw [Nat.zero_add, e3]
        omega
      have hinner := sampleRun_inner_eq cfg (cfg.width / cfg.tile_width)
        0 0 cy row n (rowsList cfg r (cy + cfg.tile_height) (row + 1)) hk1 hk2 hn
      refine ⟨n + cfg.width / cfg.tile_width + 1 + 1, ?_⟩
      rw [sampleRun_outer_succ, if_pos henter, hinner]
      rfl

theorem sampleRun_complete (cfg : SamplerCfg)
    (hW : 0 < cfg.tile_width) (hH : 0 < cfg.tile_height) :
    ∃ n, sampleRun cfg n .outer 0 0 0 0 = some (expectedYields cfg) := by
  have h1 : 0 + (cfg.height / cfg.tile_height) * cfg.tile_height ≤ cfg.height := by
    simpa using Nat.div_mul_le_self cfg.height cfg.tile_height
  have h2 : cfg.height <
      0 + (cfg.height / cfg.tile_height) * cfg.tile_height + cfg.tile_height := by
    have hdm := Nat.div_add_mod cfg.height cfg.tile_height
    have hml := Nat.mod_lt cfg.height hH
    have e3 : cfg.height / cfg.tile_height * cfg.tile_height
        = cfg.tile_height * (cfg.height / cfg.tile_height) := Nat.mul_comm _ _
    rw [Nat.zero_add, e3]
    omega
  exact sampleRun_outer_eq cfg hW (cfg.height / cfg.tile_height) 0 0 h1 h2

theorem colsList_length (cfg : SamplerCfg) (k : Nat) :
    ∀ (cx col cy row : Nat), (colsList cfg k cx col cy row).length = k := by
  induction k with
  | zero => intro cx col cy row; rfl
  | succ k ih => intro cx col cy row; simp [colsList, ih]

theorem colsList_getElem (cfg : SamplerCfg) (k : Nat) :
    ∀ (cx col cy row j : Nat), j < k →
      (colsList cfg k cx col cy row)[j]? =
        some (mkYield cfg (cx + j * cfg.tile_width) cy row (col + j)) := by
  induction k with
  | zero => intro _ _ _ _ j hj; exact absurd hj (Nat.not_lt_zero j)
  | succ k ih =>
      intro cx col cy row j hj
      cases j with
      | zero => simp [colsList]
      | succ j =>
          have e1 : cx + cfg.tile_width + j * cfg.tile_width
              = cx + (j + 1) * cfg.tile_width := by ring
          have e2 : col + 1 + j = col + (j + 1) := by ring
          simp only [colsList, List.getElem?_cons_succ]
          rw [ih (cx + cfg.tile_width) (col + 1) cy row j (by omega), e1, e2]

theorem rowsList_length (cfg : SamplerCfg) (r : Nat) :
    ∀ (cy row : Nat),
      (rowsList cfg r cy row).length = r * (cfg.width / cfg.tile_width) := by
  induction r with
  | zero => intro cy row; simp [rowsList]
  | succ r ih =>
      intro cy row
      simp only [rowsList, List.length_append, colsList_length, ih]
      ring

theorem rowsList_getElem (cfg : SamplerCfg) (r : Nat) :
    ∀ (cy row k : Nat), k < r * (cfg.width / cfg.tile_width) →
      (rowsList cfg r cy row)[k]? =
        some (mkYield cfg
          (k % (cfg.width / cfg.tile_width) * cfg.tile_width)
          (cy + k / (cfg.width / cfg.tile_width) * cfg.tile_height)
          (row + k / (cfg.width / cfg.tile_width))
          (k % (cfg.width / cfg.tile_width))) := by
  induction r with
  | zero => intro cy row k hk; simp at hk
  | succ r ih =>
      intro cy row k hk
      have hK : 0 < cfg.width / cfg.tile_width := by
        rcases Nat.eq_zero_or_pos (cfg.width / cfg.tile_width) with h | h
        · rw [h, Nat.mul_zero] at hk; exact absurd hk (Nat.not_lt_zero k)
        · exact h
      by_cases hcase : k < cfg.width / cfg.tile_width
      · simp only [rowsList]
        rw [List.getElem?_append_left (by rw [colsList_length]; exact hcase)]
        rw [colsList_getElem cfg _ 0 0 cy row k hcase]
        rw [Nat.mod_eq_of_lt hcase, Nat.div_eq_of_lt hcase]
        simp
      · push_neg at hcase
        obtain ⟨j, rfl⟩ := Nat.exists_eq_add_of_le hcase
        simp only [rowsList]
        rw [List.getElem?_append_right (by rw [colsList_length]; omega)]
        rw [colsList_length, Nat.add_sub_cancel_left]
        have e : (r + 1) * (cfg.width / cfg.tile_width)
            = (cfg.width / cfg.tile_width) + r * (cfg.width / cfg.tile_width) := by
          ring
        rw [e] at hk
        have hj : j < r * (cfg.width / cfg.tile_width) :=
          Nat.lt_of_add_lt_add_left hk
        rw [ih (cy + cfg.tile_height) (row + 1) j hj]
        have hmod : (cfg.width / cfg.tile_width + j) % (cfg.width / cfg.tile_width)
            = j % (cfg.width / cfg.tile_width) := Nat.add_mod_left _ _
        have hdiv : (cfg.width / cfg.tile_width + j) / (cfg.width / cfg.tile_width)
            = j / (cfg.width / cfg.tile_width) + 1 := by
          rw [Nat.add_comm, Nat.add_div_right j hK]
        rw [hmod, hdiv]
        have e1 : cy + cfg.tile_height
              + j / (cfg.width / cfg.tile_width) * cfg.tile_height
            = cy + (j / (cfg.width / cfg.tile_width) + 1) * cfg.tile_height := by
          ring
        have e2 : row + 1 + j / (cfg.width / cfg.tile_width)
            = row + (j / (cfg.width / cfg.tile_width) + 1) := by omega
        rw [e1, e2]

theorem sampleRun_inner_stuck (cfg : SamplerCfg) (hW : cfg.tile_width = 0) (n : Nat) :
    ∀ (cx col cy row : Nat), cx ≤ cfg.width →
      sampleRun cfg n .inner cx col cy row = none := by
  induction n with
  | zero => intro cx col cy row h; rfl
  | succ n ih =>
      intro cx col cy row h
      rw [sampleRun_inner_succ, if_pos (by omega)]
      rw [ih (cx + cfg.tile_width) (col + 1) cy row (by omega)]
      rfl

/-- C1: in count mode the number of tiles actually produced by one full pass
of `sample` need not equal `samples`: for a 10x10 image with `x = 1`, `y = 4`,
`is_fixed = false`, the constructor computes `samples = 4`, but the pass
yields 5 tiles (tile_height = 10 / 4 = 2 fits five times into 10 rows). -/
theorem sample_count_mismatch :
    (sampleRun (mkSamplerCfg 10 10 1 4 false) 100 .outer 0 0 0 0).map List.length
      = some 5
    ∧ (mkSamplerCfg 10 10 1 4 false).samples = 4 := by
  decide

/-- C2: a full iteration of `sample` does not always terminate.  For a 3x3
image in count mode with `x = 5` the derived `tile_width` is `3 / 5 = 0`, so
the inner loop condition `current_x + width <= max_x` stays true while
`current_x += width` never advances: for every fuel bound the evaluator fails
to finish. -/
theorem sample_nonterminating :
    ∀ n : Nat, sampleRun (mkSamplerCfg 3 3 5 1 false) n .outer 0 0 0 0 = none := by
  intro n
  cases n with
  | zero => rfl
  | succ n => exact sampleRun_inner_stuck _ (by decide) n 0 0 0 0 (by decide)

/-- C5: for positive `x`, `y` and either mode, construction satisfies
`samples = tiles_x * tiles_y`, `tiles_x * tile_width ≤ width` and
`tiles_y * tile_height ≤ height`. -/
theorem sampler_construction_invariants (w h x y : Nat) (f : Bool)
    (_hx : 0 < x) (_hy : 0 < y) :
    (mkSamplerCfg w h x y f).samples
        = (mkSamplerCfg w h x y f).tiles_x * (mkSamplerCfg w h x y f).tiles_y
    ∧ (mkSamplerCfg w h x y f).tiles_x * (mkSamplerCfg w h x y f).tile_width ≤ w
    ∧ (mkSamplerCfg w h x y f).tiles_y * (mkSamplerCfg w h x y f).tile_height ≤ h := by
  cases f with
  | false =>
      refine ⟨rfl, ?_, ?_⟩
      · show x * (w / x) ≤ w
        rw [Nat.mul_comm]; exact Nat.div_mul_le_self w x
      · show y * (h / y) ≤ h
        rw [Nat.mul_comm]; exact Nat.div_mul_le_self h y
  | true =>
      refine ⟨rfl, ?_, ?_⟩
      · show (w / x) * x ≤ w
        exact Nat.div_mul_le_self w x
      · show (h / y) * y ≤ h
        exact Nat.div_mul_le_self h y

/-- Witness for C5 at the spec's 105x52 example with `x = 4`, `y = 3` in
count mode. -/
theorem sampler_construction_invariants_witness :
    0 < 4 ∧ 0 < 3
    ∧ ((mkSamplerCfg 105 52 4 3 false).samples
        = (mkSamplerCfg 105 52 4 3 false).tiles_x * (mkSamplerCfg 105 52 4 3 false).tiles_y
    ∧ (mkSamplerCfg 105 52 4 3 false).tiles_x * (mkSamplerCfg 105 52 4 3 false).tile_width ≤ 105
    ∧ (mkSamplerCfg 105 52 4 3 false).tiles_y * (mkSamplerCfg 105 52 4 3 false).tile_height ≤ 52) :=
  ⟨by decide, by decide,
    sampler_construction_invariants 105 52 4 3 false (by decide) (by decide)⟩

/-- C4 (amended): every constructor failure raises `ValueError`: missing
path, undecodable path, and an `image_in` that is neither a string nor an
`ImageMatrix` (the latter is not a `TypeError`-class error); with a valid
image source and positive `x`, `y`, construction succeeds. -/
theorem tileSampler_init_errors (de : Bool) (w h x y : Nat) (f : Bool)
    (hx : 0 < x) (hy : 0 < y) :
    SampleImageTiles_init (.matrix w h) x y f = .ok (mkSamplerCfg w h x y f)
    ∧ SampleImageTiles_init (.path true true w h) x y f = .ok (mkSamplerCfg w h x y f)
    ∧ SampleImageTiles_init (.path false de w h) x y f = .error .valueError
    ∧ SampleImageTiles_init (.path true false w h) x y f = .error .valueError
    ∧ SampleImageTiles_init .other x y f = .error .valueError
    ∧ PyExc.isTypeError .valueError = false := by
  have hz : ¬(x = 0 ∨ y = 0) := by omega
  refine ⟨?_, ?_, ?_, ?_, rfl, rfl⟩
  · simp [SampleImageTiles_init, hz]
  · simp [SampleImageTiles_init, hz]
  · simp [SampleImageTiles_init]
  · simp [SampleImageTiles_init]

/-- C4 counterexample: a non-string, non-ImageMatrix `image_in` raises
`ValueError`, which is not a `TypeError`-class error; moreover with a valid
image but `x = 0` construction raises `ZeroDivisionError` instead of
succeeding. -/
theorem tileSampler_init_counterexample :
    SampleImageTiles_init .other 2 2 false = .error .valueError
    ∧ PyExc.isTypeError .valueError = false
    ∧ SampleImageTiles_init (.matrix 10 10) 0 2 false = .error .zeroDivisionError :=
  ⟨rfl, rfl, rfl⟩

/-- Witness for C4 on a 10x10 decoded image with `x = y = 2`. -/
theorem tileSampler_init_errors_witness :
    0 < 2
    ∧ SampleImageTiles_init (.matrix 10 10) 2 2 false
        = .ok (mkSamplerCfg 10 10 2 2 false) :=
  ⟨by decide, (tileSampler_init_errors true 10 10 2 2 false (by decide) (by decide)).1⟩

/-- Row-major description of one full pass of `sample`: the pass finishes,
producing `(height / tile_height) * (width / tile_width)` tiles; with
`C = width / tile_width` columns per produced row, the k-th yield is tile
`(k / C, k % C)` at pixel `(k % C * tile_width, k / C * tile_height)`; and at
every yield the cursor fields equal the held tile's column and row indices
and top-left pixel, while the extracted rectangle is
`[current_x, current_x + tile_width - 1] x [current_y, current_y + tile_height - 1]`. -/
def RowMajorSpec (cfg : SamplerCfg) : Prop :=
  ∃ n ys, sampleRun cfg n .outer 0 0 0 0 = some ys ∧
    ys.length = (cfg.height / cfg.tile_height) * (cfg.width / cfg.tile_width) ∧
    (∀ k : Nat, k < ys.length →
      ys[k]? = some (mkYield cfg
        (k % (cfg.width / cfg.tile_width) * cfg.tile_width)
        (k / (cfg.width / cfg.tile_width) * cfg.tile_height)
        (k / (cfg.width / cfg.tile_width))
        (k % (cfg.width / cfg.tile_width)))) ∧
    (∀ (k : Nat) (yv : TileYield), ys[k]? = some yv →
      yv.current_x = yv.current_col * cfg.tile_width ∧
      yv.current_y = yv.current_row * cfg.tile_height ∧
      yv.tile = { x0 := yv.current_x, y0 := yv.current_y,
                  x1 := (yv.current_x : Int) + cfg.tile_width - 1,
                  y1 := (yv.current_y : Int) + cfg.tile_height - 1 })

/-- C6 (amended): whenever the tile dimensions are positive, one pass of
`sample` is row-major with `width / tile_width` tiles per row (this equals
`tiles_x` in fixed mode but can exceed it in count mode), the cursor fields
agree with the held tile, and each yielded tile is the stated rectangle. -/
theorem sample_row_major (cfg : SamplerCfg)
    (hW : 0 < cfg.tile_width) (hH : 0 < cfg.tile_height) :
    RowMajorSpec cfg := by
  obtain ⟨n, hn⟩ := sampleRun_complete cfg hW hH
  have hlen : (expectedYields cfg).length
      = (cfg.height / cfg.tile_height) * (cfg.width / cfg.tile_width) :=
    rowsList_length cfg _ 0 0
  refine ⟨n, expectedYields cfg, hn, hlen, ?_, ?_⟩
  · intro k hk
    have hk2 : k < (cfg.height / cfg.tile_height) * (cfg.width / cfg.tile_width) := by
      rwa [hlen] at hk
    have h := rowsList_getElem cfg (cfg.height / cfg.tile_height) 0 0 k hk2
    simpa [expectedYields] using h
  · intro k yv hyv
    have hk : k < (expectedYields cfg).length := by
      by_contra hcon
      push_neg at hcon
      rw [List.getElem?_eq_none hcon] at hyv
      cases hyv
    have hk2 : k < (cfg.height / cfg.tile_height) * (cfg.width / cfg.tile_width) := by
      rwa [hlen] at hk
    have h := rowsList_getElem cfg (cfg.height / cfg.tile_height) 0 0 k hk2
    have h2 : (expectedYields cfg)[k]? = some (mkYield cfg
        (k % (cfg.width / cfg.tile_width) * cfg.tile_width)
        (0 + k / (cfg.width / cfg.tile_width) * cfg.tile_height)
        (0 + k / (cfg.width / cfg.tile_width))
        (k % (cfg.width / cfg.tile_width))) := h
    rw [h2] at hyv
    injection hyv with hy
    subst hy
    exact ⟨rfl, by simp [mkYield], rfl⟩

/-- C6 counterexample: for a 10x10 image in count mode with `x = 4`, `y = 1`
(`tile_width = 2`, `tiles_x = 4`), the pass produces 5 tiles per row; the
tile at index `k = 4` has `current_row = 0` and `current_col = 4`, whereas
the claim's formula `row = k / tiles_x`, `col = k % tiles_x` predicts
row 1, column 0. -/
theorem sample_row_major_counterexample :
    ((sampleRun (mkSamplerCfg 10 10 4 1 false) 50 .outer 0 0 0 0).getD [])[4]? =
      some (mkYield (mkSamplerCfg 10 10 4 1 false) 8 0 0 4)
    ∧ (mkYield (mkSamplerCfg 10 10 4 1 false) 8 0 0 4).current_row = 0
    ∧ (mkYield (mkSamplerCfg 10 10 4 1 false) 8 0 0 4).current_col = 4
    ∧ 4 / (mkSamplerCfg 10 10 4 1 false).tiles_x = 1
    ∧ 4 % (mkSamplerCfg 10 10 4 1 false).tiles_x = 0 := by
  decide

/-- Witness for C6 at the spec's 100x50 fixed-mode example (`x = 10`,
`y = 5`). -/
theorem sample_row_major_witness :
    0 < (mkSamplerCfg 100 50 10 5 true).tile_width
    ∧ 0 < (mkSamplerCfg 100 50 10 5 true).tile_height
    ∧ RowMajorSpec (mkSamplerCfg 100 50 10 5 true) :=
  ⟨by decide, by decide, sample_row_major _ (by decide) (by decide)⟩

/-- Extended floating-point value as used by `normalize_by_columns`: NaN,
plus/minus infinity, or a finite value (modelled as an exact rational). -/
inductive EFloat where
  | nan
  | pinf
  | ninf
  | val (q : ℚ)
deriving DecidableEq

/-- Whether a value is invalid in numpy's sense (`np.ma.masked_invalid`
masks NaN and both infinities). -/
def isInvalid : EFloat → Bool
  | .val _ => false
  | _ => true

/-- IEEE `np.maximum`: NaN propagates, `+inf` dominates, `-inf` is neutral. -/
def npMaximum : EFloat → EFloat → EFloat
  | .nan, _ => .nan
  | _, .nan => .nan
  | .pinf, _ => .pinf
  | _, .pinf => .pinf
  | .ninf, b => b
  | a, .ninf => a
  | .val a, .val b => .val (max a b)

/-- IEEE `np.minimum`: NaN propagates, `-inf` dominates, `+inf` is neutral. -/
def npMinimum : EFloat → EFloat → EFloat
  | .nan, _ => .nan
  | _, .nan => .nan
  | .ninf, _ => .ninf
  | _, .ninf => .ninf
  | .pinf, b => b
  | a, .pinf => a
  | .val a, .val b => .val (min a b)

/-- `ndarray.clip(lo, hi)` on one entry: `minimum(maximum(v, lo), hi)`.
NaN entries (and NaN bounds) propagate; `+inf` clips to `hi`, `-inf` clips
to `lo`. -/
def clip1 (v lo hi : EFloat) : EFloat :=
  npMinimum (npMaximum v lo) hi

/-- IEEE subtraction with `np.seterr(all=ignore)` semantics. -/
def esub : EFloat → EFloat → EFloat
  | .nan, _ => .nan
  | _, .nan => .nan
  | .pinf, .pinf => .nan
  | .pinf, _ => .pinf
  | .ninf, .ninf => .nan
  | .ninf, _ => .ninf
  | _, .pinf => .ninf
  | _, .ninf => .pinf
  | .val a, .val b => .val (a - b)

/-- IEEE division with `np.seterr(all=ignore)` semantics (signed zeros are
not modelled: a finite value divided by an infinity is 0). -/
def ediv : EFloat → EFloat → EFloat
  | .nan, _ => .nan
  | _, .nan => .nan
  | .pinf, .pinf => .nan
  | .pinf, .ninf => .nan
  | .ninf, .pinf => .nan
  | .ninf, .ninf => .nan
  | .pinf, .val b => if b < 0 then .ninf else .pinf
  | .ninf, .val b => if b < 0 then .pinf else .ninf
  | .val _, .pinf => .val 0
  | .val _, .ninf => .val 0
  | .val a, .val b =>
      if b = 0 then
        if a = 0 then .nan else if 0 < a then .pinf else .ninf
      else .val (a / b)

/-- Multiplication by the positive constant `100.0` (the final
`full_stack_m.filled (0) * 100.0`). -/
def emul100 : EFloat → EFloat
  | .nan => .nan
  | .pinf => .pinf
  | .ninf => .ninf
  | .val a => .val (a * 100)

/-- The fate of one matrix entry `v` of a column with bounds `minc`, `maxc`
through the normalization pipeline of `normalize_by_columns` (utils.py lines
152-162): first `clip`, then `masked_invalid` (an invalid entry is masked and
later `filled` with 0), then the masked in-place `-= mins` and
`/= (maxs - mins)` (numpy masks the division where the divisor is 0), and
finally `filled (0) * 100.0`. -/
def normEntry (minc maxc v : EFloat) : EFloat :=
  if isInvalid (clip1 v minc maxc) then .val 0
  else if esub maxc minc = .val 0 then .val 0
  else emul100 (ediv (esub (clip1 v minc maxc) minc) (esub maxc minc))

/-- Normalize one row, entry by entry; `c` is the current column index and
`bmin`, `bmax` give the per-column bounds. -/
def normRow (bmin bmax : Nat → EFloat) : Nat → List EFloat → List EFloat
  | _, [] => []
  | c, v :: vs => normEntry (bmin c) (bmax c) v :: normRow bmin bmax (c + 1) vs

/-- The rationals of the valid (finite) entries of a list, in order: the
entries that survive `np.ma.masked_invalid`. -/
def validRats (l : List EFloat) : List ℚ :=
  l.filterMap (fun v => match v with | .val q => some q | _ => none)

/-- `np.ma.max` over a column: the maximum of the valid entries.  A column
with no valid entry yields the masked constant, represented here as `nan`
(its only effect downstream is that every entry of such a column is masked,
which `nan` bounds reproduce through `clip`). -/
def listMaxE (l : List EFloat) : EFloat :=
  match validRats l with
  | [] => .nan
  | q :: qs => .val (qs.foldl max q)

/-- `np.ma.min` over a column, analogous to `listMaxE`. -/
def listMinE (l : List EFloat) : EFloat :=
  match validRats l with
  | [] => .nan
  | q :: qs => .val (qs.foldl min q)

/-- Number of feature columns of the matrix (numpy shape: all rows of an
ndarray have equal length). -/
def ncols (m : List (List EFloat)) : Nat := (m.headD []).length

/-- Column `c` of the matrix. -/
def colList (m : List (List EFloat)) (c : Nat) : List EFloat :=
  m.map (fun row => row.getD c .nan)

/-- The per-column maxima derived from the matrix itself
(`full_stack_m.max (axis=0)`). -/
def derivedMaxs (m : List (List EFloat)) : List EFloat :=
  (List.range (ncols m)).map (fun c => listMaxE (colList m c))

/-- The per-column minima derived from the matrix itself
(`full_stack_m.min (axis=0)`). -/
def derivedMins (m : List (List EFloat)) : List EFloat :=
  (List.range (ncols m)).map (fun c => listMinE (colList m c))

/-- Broadcast access into a supplied 1D bounds array against a matrix with
`C` columns: a length-1 array broadcasts to every column, otherwise entry `c`
is used. -/
def boundAt (C : Nat) (bs : List EFloat) (c : Nat) : EFloat :=
  if bs.length = 1 then bs.getD 0 .nan else bs.getD c .nan

/-- The value returned by a successful `normalize_by_columns` call: the
mutated matrix and the `(mins, maxs)` pair actually applied. -/
structure NormResult where
  matrix : List (List EFloat)
  mins : List EFloat
  maxs : List EFloat
deriving DecidableEq

deriving instance DecidableEq for Except

/-- `normalize_by_columns` (utils.py lines 123-167).  The `String` component
is the numpy floating-point error policy: the routine saves the caller's
policy, switches to `ignore`, and restores the saved policy when it returns
normally; there is no try/finally, so when broadcasting of supplied bounds
fails inside `clip` (a 1D bounds array broadcasts against an `(n, C)` matrix
only when its length is `C` or 1) the raised `ValueError` escapes with the
policy still set to `ignore`.  If `mins` or `maxs` is not supplied, both are
derived from the matrix, skipping invalid entries. -/
def normalize_by_columns (pol : String) (m : List (List EFloat))
    (mins0 maxs0 : Option (List EFloat)) :
    Except PyExc NormResult × String :=
  match mins0, maxs0 with
  | some mn, some mx =>
      let C := ncols m
      if (mn.length = C ∨ mn.length = 1) ∧ (mx.length = C ∨ mx.length = 1) then
        (.ok { matrix := m.map (normRow (boundAt C mn) (boundAt C mx) 0)
               mins := mn, maxs := mx }, pol)
      else
        (.error .valueError, "ignore")
  | _, _ =>
      (.ok { matrix := m.map (normRow
               (fun c => (derivedMins m).getD c .nan)
               (fun c => (derivedMaxs m).getD c .nan) 0)
             mins := derivedMins m, maxs := derivedMaxs m }, pol)

/-- The output matrix of a `normalize_by_columns` call, or `[]` if the call
raised. -/
def okMatrix : Except PyExc NormResult × String → List (List EFloat)
  | (.ok r, _) => r.matrix
  | (.error _, _) => []

/-- The `(mins, maxs)` pair returned by a `normalize_by_columns` call, if it
returned. -/
def okBounds : Except PyExc NormResult × String → Option (List EFloat × List EFloat)
  | (.ok r, _) => some (r.mins, r.maxs)
  | (.error _, _) => none

unseal Rat.add Rat.sub Rat.mul Rat.inv

theorem normEntry_nan_left (b v : EFloat) : normEntry .nan b v = .val 0 := by
  cases v <;> cases b <;> rfl

theorem normEntry_nan_right (a v : EFloat) : normEntry a .nan v = .val 0 := by
  cases v <;> cases a <;> rfl

theorem normEntry_val_val (mq Mq : ℚ) (v : EFloat) :
    normEntry (.val mq) (.val Mq) v =
      if Mq - mq = 0 then .val 0
      else
        match v with
        | .nan => .val 0
        | .pinf => .val ((Mq - mq) / (Mq - mq) * 100)
        | .ninf => .val ((min mq Mq - mq) / (Mq - mq) * 100)
        | .val q => .val ((min (max q mq) Mq - mq) / (Mq - mq) * 100) := by
  by_cases h : Mq - mq = 0 <;> cases v <;>
    simp [normEntry, clip1, npMaximum, npMinimum, esub, ediv, emul100, isInvalid, h]

theorem normEntry_finite (mq Mq : ℚ) (v : EFloat) :
    isInvalid (normEntry (.val mq) (.val Mq) v) = false := by
  rw [normEntry_val_val]
  by_cases h : Mq - mq = 0
  · simp [h, isInvalid]
  · cases v <;> simp [h, isInvalid]

theorem normEntry_zero_of_invalid (a b v : EFloat)
    (h : isInvalid (clip1 v a b) = true) : normEntry a b v = .val 0 := by
  simp [normEntry, h]

theorem normEntry_zero_of_zero_range (a b v : EFloat)
    (h : esub b a = .val 0) : normEntry a b v = .val 0 := by
  simp [normEntry, h]

theorem normRow_getD (bmin bmax : Nat → EFloat) :
    ∀ (row : List EFloat) (c0 c : Nat),
      (normRow bmin bmax c0 row).getD c (.val 0) =
        if c < row.length then
          normEntry (bmin (c0 + c)) (bmax (c0 + c)) (row.getD c .nan)
        else .val 0 := by
  intro row
  induction row with
  | nil => intro c0 c; simp [normRow]
  | cons v vs ih =>
      intro c0 c
      cases c with
      | zero => simp [normRow]
      | succ c =>
          simp only [normRow, List.getD_cons_succ, List.length_cons]
          rw [ih (c0 + 1) c]
          have e : c0 + 1 + c = c0 + (c + 1) := by omega
          rw [e]
          by_cases hc : c < vs.length
          · rw [if_pos hc, if_pos (by omega)]
          · rw [if_neg hc, if_neg (by omega)]

theorem map_normRow_getD (bmin bmax : Nat → EFloat) :
    ∀ (m : List (List EFloat)) (i : Nat),
      (m.map (normRow bmin bmax 0)).getD i [] = normRow bmin bmax 0 (m.getD i []) := by
  intro m
  induction m with
  | nil => intro i; simp [normRow]
  | cons r rs ih =>
      intro i
      cases i with
      | zero => simp
      | succ i => simpa using ih i

theorem listMinE_shape (l : List EFloat) :
    listMinE l = .nan ∨ ∃ q, listMinE l = .val q := by
  cases h : validRats l with
  | nil => left; unfold listMinE; rw [h]
  | cons q qs => right; exact ⟨qs.foldl min q, by unfold listMinE; rw [h]⟩

theorem listMaxE_shape (l : List EFloat) :
    listMaxE l = .nan ∨ ∃ q, listMaxE l = .val q := by
  cases h : validRats l with
  | nil => left; unfold listMaxE; rw [h]
  | cons q qs => right; exact ⟨qs.foldl max q, by unfold listMaxE; rw [h]⟩

theorem getD_shape (P : EFloat → Prop) (l : List EFloat) (c : Nat) (d : EFloat)
    (hd : P d) (hl : ∀ x ∈ l, P x) : P (l.getD c d) := by
  rw [List.getD_eq_getElem?_getD]
  cases h : l[c]? with
  | none => simpa using hd
  | some x => simpa using hl x (List.getElem?_mem h)

theorem derivedMins_shape (m : List (List EFloat)) (c : Nat) :
    (derivedMins m).getD c .nan = .nan ∨ ∃ q, (derivedMins m).getD c .nan = .val q := by
  refine getD_shape (fun e => e = .nan ∨ ∃ q, e = .val q)
    (derivedMins m) c .nan (Or.inl rfl) ?_
  intro x hx
  obtain ⟨c2, _, rfl⟩ := List.mem_map.mp hx
  exact listMinE_shape _

theorem derivedMaxs_shape (m : List (List EFloat)) (c : Nat) :
    (derivedMaxs m).getD c .nan = .nan ∨ ∃ q, (derivedMaxs m).getD c .nan = .val q := by
  refine getD_shape (fun e => e = .nan ∨ ∃ q, e = .val q)
    (derivedMaxs m) c .nan (Or.inl rfl) ?_
  intro x hx
  obtain ⟨c2, _, rfl⟩ := List.mem_map.mp hx
  exact listMaxE_shape _

theorem normEntry_finite_of_shape (a b v : EFloat)
    (ha : a = .nan ∨ ∃ q, a = .val q) (hb : b = .nan ∨ ∃ q, b = .val q) :
    isInvalid (normEntry a b v) = false := by
  rcases ha with rfl | ⟨mq, rfl⟩
  · rw [normEntry_nan_left]; rfl
  rcases hb with rfl | ⟨Mq, rfl⟩
  · rw [normEntry_nan_right]; rfl
  exact normEntry_finite mq Mq v

/-- C3 (amended): `normalize_by_columns` switches the numpy error policy to
`ignore` for its duration and restores the caller's policy on every normal
return; but when an exception escapes (shape-incompatible supplied bounds)
the policy is left at `ignore` rather than restored. -/
theorem normalize_seterr_restore (pol : String) (m : List (List EFloat))
    (mins0 maxs0 : Option (List EFloat)) :
    ((normalize_by_columns pol m mins0 maxs0).2 = pol
      ∨ (normalize_by_columns pol m mins0 maxs0).2 = "ignore")
    ∧ (∀ r : NormResult, (normalize_by_columns pol m mins0 maxs0).1 = .ok r →
        (normalize_by_columns pol m mins0 maxs0).2 = pol) := by
  cases mins0 with
  | none => cases maxs0 <;> exact ⟨Or.inl rfl, fun r _ => rfl⟩
  | some mn =>
      cases maxs0 with
      | none => exact ⟨Or.inl rfl, fun r _ => rfl⟩
      | some mx =>
          by_cases hc : (mn.length = ncols m ∨ mn.length = 1)
              ∧ (mx.length = ncols m ∨ mx.length = 1)
          · constructor
            · left
              simp [normalize_by_columns, hc]
            · intro r _
              simp [normalize_by_columns, hc]
          · constructor
            · right
              simp [normalize_by_columns, hc]
            · intro r hr
              rw [show (normalize_by_columns pol m (some mn) (some mx)).1
                  = Except.error PyExc.valueError from by
                    simp [normalize_by_columns, hc]] at hr
              cases hr

/-- C3 counterexample: supplying length-3 bounds against a 2-column matrix
makes `clip` raise before the restoring `np.seterr` call; the routine exits
with the policy left at `ignore`, not the caller's `raise`. -/
theorem normalize_seterr_leak_counterexample :
    normalize_by_columns "raise" [[.val 1, .val 2]]
        (some [.val 0, .val 0, .val 0]) (some [.val 1, .val 1, .val 1])
      = (.error .valueError, "ignore")
    ∧ "ignore" ≠ "raise" :=
  ⟨by decide, by decide⟩

/-- Witness for C3: a successful derived-bounds call entered with policy
`raise` returns with policy `raise`. -/
theorem normalize_seterr_restore_witness :
    (normalize_by_columns "raise" [[.val 5]] none none).1
        = .ok { matrix := [[.val 0]], mins := [.val 5], maxs := [.val 5] }
    ∧ (normalize_by_columns "raise" [[.val 5]] none none).2 = "raise" :=
  ⟨by decide,
    (normalize_seterr_restore "raise" [[.val 5]] none none).2
      { matrix := [[.val 0]], mins := [.val 5], maxs := [.val 5] } (by decide)⟩

/-- C10: when exactly one of `mins`/`maxs` is supplied, the supplied vector
is ignored: the call behaves exactly like the fully derived call, and the
returned pair is the derived pair (whose reductions skip NaN and infinite
entries). -/
theorem normalize_one_sided_bounds_ignored (pol : String) (m : List (List EFloat))
    (v : List EFloat) :
    normalize_by_columns pol m (some v) none = normalize_by_columns pol m none none
    ∧ normalize_by_columns pol m none (some v) = normalize_by_columns pol m none none
    ∧ okBounds (normalize_by_columns pol m (some v) none)
        = some (derivedMins m, derivedMaxs m)
    ∧ derivedMaxs [[.val 1], [.pinf], [.nan], [.val 3]] = [.val 3]
    ∧ derivedMins [[.val 1], [.ninf], [.val 3]] = [.val 1] :=
  ⟨rfl, rfl, rfl, by decide, by decide⟩

theorem mapval_getD_shape (l : List ℚ) (c : Nat) :
    (l.map EFloat.val).getD c .nan = .nan
      ∨ ∃ q, (l.map EFloat.val).getD c .nan = .val q := by
  refine getD_shape (fun e => e = .nan ∨ ∃ q, e = .val q) _ c _ (Or.inl rfl) ?_
  intro x hx
  obtain ⟨q, _, rfl⟩ := List.mem_map.mp hx
  exact Or.inr ⟨q, rfl⟩

theorem boundAt_mapval_shape (C : Nat) (l : List ℚ) (c : Nat) :
    boundAt C (l.map EFloat.val) c = .nan
      ∨ ∃ q, boundAt C (l.map EFloat.val) c = .val q := by
  unfold boundAt
  split
  · exact mapval_getD_shape l 0
  · exact mapval_getD_shape l c

/-- C7: every output entry of `normalize_by_columns` is finite, both with
derived bounds and with supplied finite bounds, and with derived bounds
every position whose value was invalid after clipping (an original NaN, or
an entry of an all-invalid column) or whose column has zero range ends up
exactly 0; in particular `[7,7,7]` maps to `[0,0,0]` and an all-NaN column
maps to all zeros, without raising. -/
theorem normalize_sanitizes (pol : String) (m : List (List EFloat)) :
    (∀ i c : Nat,
      isInvalid (((okMatrix (normalize_by_columns pol m none none)).getD i []).getD c
        (.val 0)) = false)
    ∧ (∀ i c : Nat,
        (isInvalid (clip1 ((m.getD i []).getD c .nan)
            ((derivedMins m).getD c .nan) ((derivedMaxs m).getD c .nan)) = true
          ∨ esub ((derivedMaxs m).getD c .nan) ((derivedMins m).getD c .nan) = .val 0) →
        ((okMatrix (normalize_by_columns pol m none none)).getD i []).getD c (.val 0)
          = .val 0)
    ∧ (∀ (mnq mxq : List ℚ) (i c : Nat),
        isInvalid (((okMatrix (normalize_by_columns pol m
            (some (mnq.map EFloat.val)) (some (mxq.map EFloat.val)))).getD i []).getD c
          (.val 0)) = false)
    ∧ normalize_by_columns pol [[.val 7], [.val 7], [.val 7]] none none
        = (.ok { matrix := [[.val 0], [.val 0], [.val 0]],
                 mins := [.val 7], maxs := [.val 7] }, pol)
    ∧ normalize_by_columns pol [[.nan], [.nan]] none none
        = (.ok { matrix := [[.val 0], [.val 0]], mins := [.nan], maxs := [.nan] }, pol) := by
  have hok : okMatrix (normalize_by_columns pol m none none)
      = m.map (normRow (fun c => (derivedMins m).getD c .nan)
          (fun c => (derivedMaxs m).getD c .nan) 0) := rfl
  refine ⟨?_, ?_, ?_, rfl, rfl⟩
  · intro i c
    rw [hok, map_normRow_getD, normRow_getD]
    by_cases hc : c < (m.getD i []).length
    · rw [if_pos hc]
      simp only [Nat.zero_add]
      exact normEntry_finite_of_shape _ _ _ (derivedMins_shape m c) (derivedMaxs_shape m c)
    · rw [if_neg hc]; rfl
  · intro i c hinv
    rw [hok, map_normRow_getD, normRow_getD]
    by_cases hc : c < (m.getD i []).length
    · rw [if_pos hc]
      simp only [Nat.zero_add]
      rcases hinv with hinv | hzr
      · exact normEntry_zero_of_invalid _ _ _ hinv
      · exact normEntry_zero_of_zero_range _ _ _ hzr
    · rw [if_neg hc]
  · intro mnq mxq i c
    by_cases hcompat : (mnq.length = ncols m ∨ mnq.length = 1)
        ∧ (mxq.length = ncols m ∨ mxq.length = 1)
    · have hok2 : okMatrix (normalize_by_columns pol m (some (mnq.map EFloat.val))
          (some (mxq.map EFloat.val)))
          = m.map (normRow (boundAt (ncols m) (mnq.map EFloat.val))
              (boundAt (ncols m) (mxq.map EFloat.val)) 0) := by
        simp [normalize_by_columns, okMatrix, List.length_map, hcompat]
      rw [hok2, map_normRow_getD, normRow_getD]
      by_cases hc : c < (m.getD i []).length
      · rw [if_pos hc]
        simp only [Nat.zero_add]
        exact normEntry_finite_of_shape _ _ _ (boundAt_mapval_shape _ mnq c)
          (boundAt_mapval_shape _ mxq c)
      · rw [if_neg hc]; rfl
    · have hok2 : okMatrix (normalize_by_columns pol m (some (mnq.map EFloat.val))
          (some (mxq.map EFloat.val))) = [] := by
        simp [normalize_by_columns, okMatrix, List.length_map, hcompat]
      rw [hok2]
      rfl

/-- Witness for C7 on the all-NaN matrix `[[nan]]`: position (0,0) was
invalid after clipping, and its output entry is 0. -/
theorem normalize_sanitizes_witness :
    isInvalid (clip1 (([[EFloat.nan]].getD 0 []).getD 0 .nan)
        ((derivedMins [[EFloat.nan]]).getD 0 .nan)
        ((derivedMaxs [[EFloat.nan]]).getD 0 .nan)) = true
    ∧ ((okMatrix (normalize_by_columns "w" [[EFloat.nan]] none none)).getD 0 []).getD 0
        (.val 0) = .val 0 :=
  ⟨by decide,
    (normalize_sanitizes "w" [[EFloat.nan]]).2.1 0 0 (Or.inl (by decide))⟩

/-- The spec's clip-then-rescale mapping for a column with bounds
`lo < hi`: finite entries are clamped to `[lo, hi]` and rescaled by
`(v - lo) / (hi - lo) * 100`, `+inf` clips to `hi` (rescaling to 100),
`-inf` clips to `lo` (rescaling to 0), and NaN is zeroed by the final
sanitation. -/
def clipScaleSpec (lo hi : ℚ) : EFloat → EFloat
  | .val q => .val ((min (max q lo) hi - lo) / (hi - lo) * 100)
  | .pinf => .val 100
  | .ninf => .val 0
  | .nan => .val 0

theorem normEntry_eq_clipScaleSpec (lo hi : ℚ) (h : lo < hi) (v : EFloat) :
    normEntry (.val lo) (.val hi) v = clipScaleSpec lo hi v := by
  have hne : hi - lo ≠ 0 := sub_ne_zero.mpr (ne_of_gt h)
  rw [normEntry_val_val, if_neg hne]
  cases v with
  | nan => rfl
  | pinf =>
      show EFloat.val ((hi - lo) / (hi - lo) * 100) = EFloat.val 100
      rw [div_self hne, one_mul]
  | ninf =>
      show EFloat.val ((min lo hi - lo) / (hi - lo) * 100) = EFloat.val 0
      rw [min_eq_left (le_of_lt h), sub_self, zero_div, zero_mul]
  | val q => rfl

theorem getD_map_val (l : List ℚ) (c : Nat) (hc : c < l.length) :
    (l.map EFloat.val).getD c .nan = .val (l.getD c 0) := by
  rw [List.getD_eq_getElem?_getD, List.getD_eq_getElem?_getD, List.getElem?_map,
    List.getElem?_eq_getElem hc]
  rfl

theorem boundAt_map_val (C : Nat) (l : List ℚ) (c : Nat)
    (hl : l.length = C) (hc : c < C) :
    boundAt C (l.map EFloat.val) c = .val (l.getD c 0) := by
  unfold boundAt
  rw [List.length_map, hl]
  by_cases h1 : C = 1
  · subst h1
    have hc0 : c = 0 := by omega
    subst hc0
    rw [if_pos rfl]
    exact getD_map_val l 0 (by omega)
  · rw [if_neg h1]
    exact getD_map_val l c (by omega)

/-- C8: with supplied finite bounds `mins < maxs` per column, every matrix
entry is clipped to the column range (`+inf` to the max, `-inf` to the min,
NaN preserved through clipping and zeroed at the end) and then rescaled by
`(v - min) / (max - min) * 100`; in particular the column `[0,5,10,15,-5]`
with bounds `[0]`, `[10]` maps to `[0,50,100,100,0]`. -/
theorem normalize_clip_rescale (pol : String) (m : List (List EFloat))
    (mnq mxq : List ℚ)
    (hmn : mnq.length = ncols m) (hmx : mxq.length = ncols m)
    (hlt : ∀ c, c < ncols m → mnq.getD c 0 < mxq.getD c 0) :
    (∀ i c : Nat, c < ncols m → c < (m.getD i []).length →
      ((okMatrix (normalize_by_columns pol m
            (some (mnq.map EFloat.val)) (some (mxq.map EFloat.val)))).getD i []).getD c
          (.val 0)
        = clipScaleSpec (mnq.getD c 0) (mxq.getD c 0) ((m.getD i []).getD c .nan))
    ∧ normalize_by_columns pol [[.val 0], [.val 5], [.val 10], [.val 15], [.val (-5)]]
        (some [.val 0]) (some [.val 10])
      = (.ok { matrix := [[.val 0], [.val 50], [.val 100], [.val 100], [.val 0]],
               mins := [.val 0], maxs := [.val 10] }, pol) := by
  constructor
  · intro i c hcC hclen
    have hcompat : (mnq.length = ncols m ∨ mnq.length = 1)
        ∧ (mxq.length = ncols m ∨ mxq.length = 1) := ⟨Or.inl hmn, Or.inl hmx⟩
    have hok : okMatrix (normalize_by_columns pol m
        (some (mnq.map EFloat.val)) (some (mxq.map EFloat.val)))
        = m.map (normRow (boundAt (ncols m) (mnq.map EFloat.val))
            (boundAt (ncols m) (mxq.map EFloat.val)) 0) := by
      simp [normalize_by_columns, okMatrix, List.length_map, hcompat]
    rw [hok, map_normRow_getD, normRow_getD, if_pos hclen]
    simp only [Nat.zero_add]
    rw [boundAt_map_val (ncols m) mnq c hmn hcC, boundAt_map_val (ncols m) mxq c hmx hcC]
    exact normEntry_eq_clipScaleSpec _ _ (hlt c hcC) _
  · rfl

/-- Witness for C8 on a one-column matrix `[[7]]` with bounds 0 and 10. -/
theorem normalize_clip_rescale_witness :
    ((0:ℚ) < 10)
    ∧ ((okMatrix (normalize_by_columns "w" [[EFloat.val 7]]
          (some ([(0:ℚ)].map EFloat.val)) (some ([(10:ℚ)].map EFloat.val)))).getD 0 []).getD 0
        (.val 0)
      = clipScaleSpec 0 10 (EFloat.val 7) :=
  ⟨by decide,
    (normalize_clip_rescale "w" [[EFloat.val 7]] [0] [10] (by decide) (by decide)
      (by decide)).1 0 0 (by decide) (by decide)⟩

/-- Whether an entry is a finite value within the output range `[0, 100]`. -/
def inRange0100 : EFloat → Bool
  | .val q => decide (0 ≤ q) && decide (q ≤ 100)
  | _ => false

theorem normEntry_id (v : EFloat) (hv : inRange0100 v = true) :
    normEntry (.val 0) (.val 100) v = v := by
  cases v with
  | nan => simp [inRange0100] at hv
  | pinf => simp [inRange0100] at hv
  | ninf => simp [inRange0100] at hv
  | val q =>
      simp only [inRange0100, Bool.and_eq_true, decide_eq_true_eq] at hv
      rw [normEntry_eq_clipScaleSpec 0 100 (by norm_num) (.val q)]
      show EFloat.val ((min (max q 0) 100 - 0) / (100 - 0) * 100) = EFloat.val q
      rw [max_eq_left hv.1, min_eq_left hv.2, sub_zero, sub_zero,
        div_mul_cancel₀ q (by norm_num : (100:ℚ) ≠ 0)]

theorem normRow_id (bmin bmax : Nat → EFloat)
    (hbmin : ∀ c, bmin c = .val 0) (hbmax : ∀ c, bmax c = .val 100) :
    ∀ (row : List EFloat) (c0 : Nat), (∀ v ∈ row, inRange0100 v = true) →
      normRow bmin bmax c0 row = row := by
  intro row
  induction row with
  | nil => intro c0 _; rfl
  | cons v vs ih =>
      intro c0 h
      simp only [normRow]
      rw [hbmin c0, hbmax c0, normEntry_id v (h v (List.mem_cons_self v vs)),
        ih (c0 + 1) (fun x hx => h x (List.mem_cons_of_mem v hx))]

theorem map_eq_self_of_eq (f : List EFloat → List EFloat) :
    ∀ l : List (List EFloat), (∀ x ∈ l, f x = x) → l.map f = l := by
  intro l
  induction l with
  | nil => intro _; rfl
  | cons a l ih =>
      intro h
      rw [List.map_cons, h a (List.mem_cons_self a l),
        ih (fun x hx => h x (List.mem_cons_of_mem a hx))]

/-- C9: on a matrix whose entries are all finite and already in `[0, 100]`,
normalizing with supplied bounds 0 and 100 returns the matrix unchanged
(exactly, in the rational model). -/
theorem normalize_idempotent (pol : String) (m : List (List EFloat))
    (hm : ∀ row ∈ m, ∀ v ∈ row, inRange0100 v = true) :
    normalize_by_columns pol m (some [.val 0]) (some [.val 100])
      = (.ok { matrix := m, mins := [.val 0], maxs := [.val 100] }, pol) := by
  have hb0 : ∀ c, boundAt (ncols m) [EFloat.val 0] c = EFloat.val 0 := fun c => rfl
  have hb100 : ∀ c, boundAt (ncols m) [EFloat.val 100] c = EFloat.val 100 := fun c => rfl
  have hmap : m.map (normRow (boundAt (ncols m) [EFloat.val 0])
      (boundAt (ncols m) [EFloat.val 100]) 0) = m :=
    map_eq_self_of_eq _ m (fun row hrow => normRow_id _ _ hb0 hb100 row 0 (hm row hrow))
  simp only [normalize_by_columns]
  rw [if_pos ⟨Or.inr rfl, Or.inr rfl⟩, hmap]

/-- Witness for C9 on a 2x2 in-range matrix. -/
theorem normalize_idempotent_witness :
    (∀ row ∈ [[EFloat.val 50, EFloat.val 0], [EFloat.val 100, EFloat.val 25]],
      ∀ v ∈ row, inRange0100 v = true)
    ∧ normalize_by_columns "q" [[EFloat.val 50, EFloat.val 0], [EFloat.val 100, EFloat.val 25]]
        (some [EFloat.val 0]) (some [EFloat.val 100])
      = (.ok { matrix := [[EFloat.val 50, EFloat.val 0], [EFloat.val 100, EFloat.val 25]],
               mins := [EFloat.val 0], maxs := [EFloat.val 100] }, "q") :=
  ⟨by decide, normalize_idempotent "q" _ (by decide)⟩
